import Mathlib

/-!
Shallow embedding of the core of the pdf2txt repository.

Text is modelled as `List Char` (one Python `str` code point per `Char`).
Python float threshold comparisons (`ratio > 0.6`, `count > len * 0.7`,
`height > 10000 * 1.2`) are modelled by exact rational comparisons over `Nat`;
for the CJK-ratio thresholds this agrees with Python's float semantics at
every integer point, and `10000 * 1.2` evaluates to exactly `12000.0` as a
double, so the chunking test is `height > 12000`.  Python's `re` digit class
is modelled as the ASCII digits and `str.lower` as ASCII lowering, which agree
with Python on all inputs considered here.
-/

namespace Pdf2Txt

/-- Code points Python's `str.strip()` / `re` class `\s` treat as whitespace. -/
def pySpaceCodes : List Nat :=
  [9, 10, 11, 12, 13, 28, 29, 30, 31, 32, 133, 160, 5760,
   8192, 8193, 8194, 8195, 8196, 8197, 8198, 8199, 8200, 8201, 8202,
   8232, 8233, 8239, 8287, 12288]

def pySpaceB (c : Char) : Bool := pySpaceCodes.contains c.toNat

/-- `str.strip()`: drop whitespace from both ends. -/
def stripL (l : List Char) : List Char :=
  ((l.dropWhile pySpaceB).reverse.dropWhile pySpaceB).reverse

/-- `text.split('\n')`. -/
def splitNlL : List Char → List (List Char)
  | [] => [[]]
  | c :: cs =>
    if c = '\n' then [] :: splitNlL cs
    else
      match splitNlL cs with
      | [] => [[c]]
      | h :: t => (c :: h) :: t

/-- `'\n'.join(lines)`. -/
def joinNl : List (List Char) → List Char
  | [] => []
  | [l] => l
  | l :: l2 :: ls => l ++ '\n' :: joinNl (l2 :: ls)

/-- Python's substring test `needle in hay`. -/
def containsL (n : List Char) : List Char → Bool
  | [] => n.isEmpty
  | c :: t => n.isPrefixOf (c :: t) || containsL n t

def isCJK (c : Char) : Bool := 0x4e00 ≤ c.toNat && c.toNat ≤ 0x9fff

def isUpperAscii (c : Char) : Bool := 'A' ≤ c && c ≤ 'Z'

def isDigitB (c : Char) : Bool := '0' ≤ c && c ≤ '9'

def isAsciiAlpha (c : Char) : Bool :=
  ('a' ≤ c && c ≤ 'z') || ('A' ≤ c && c ≤ 'Z')

/-- `len(re.findall(r'[一-鿿]', line))`. -/
def chineseCountL (l : List Char) : Nat := l.countP (fun c => isCJK c)

/-- Symbol codes of the class `[.,;:!@#$%^&*()_+=\-[]{}|\\~]` plus backtick. -/
def upperSymPunctCodes : List Nat :=
  [33, 35, 36, 37, 38, 40, 41, 42, 43, 44, 45, 46, 58, 59, 61, 64,
   91, 92, 93, 94, 95, 96, 123, 124, 125, 126]

/-- One character of the class `[A-Z\s.,;:!@#$%^&*()_+=\-[]{}|\\` ~]`. -/
def upperSymChar (c : Char) : Bool :=
  isUpperAscii c || pySpaceB c || upperSymPunctCodes.contains c.toNat

/-- Match `\d{1,2}` then the marker character, then continue with `k`. -/
def m12 (mk : Char) (k : List Char → Bool) : List Char → Bool
  | a :: b :: rest =>
    (isDigitB a && b = mk && k rest) ||
    (isDigitB a && isDigitB b &&
      match rest with
      | c :: r2 => c = mk && k r2
      | [] => false)
  | _ => false

/-- Match `\d{4}年\d{1,2}月\d{1,2}日` anchored at the head. -/
def dateAt : List Char → Bool
  | d1 :: d2 :: d3 :: d4 :: y :: rest =>
    isDigitB d1 && isDigitB d2 && isDigitB d3 && isDigitB d4 &&
    y = '年' && m12 '月' (m12 '日' (fun _ => true)) rest
  | _ => false

/-- `re.search(r'\d{4}年\d{1,2}月\d{1,2}日', line)`. -/
def dateSearch : List Char → Bool
  | [] => false
  | c :: t => dateAt (c :: t) || dateSearch t

/-- Three consecutive uppercase ASCII letters at the head. -/
def up3 : List Char → Bool
  | a :: b :: c :: _ => isUpperAscii a && isUpperAscii b && isUpperAscii c
  | _ => false

def hasUp3 : List Char → Bool
  | [] => false
  | c :: t => up3 (c :: t) || hasUp3 t

/-- `re.search(r'[A-Z]{3,}.*[A-Z]{3,}', line)`. -/
def uiPatternA : List Char → Bool
  | [] => false
  | c :: t => (up3 (c :: t) && hasUp3 (t.drop 2)) || uiPatternA t

/-- `re.search(r'^\s*[A-Z\s]{10,}$', line)`. -/
def uiPatternB (l : List Char) : Bool :=
  decide (10 ≤ l.length) && l.all (fun c => isUpperAscii c || pySpaceB c)

/-- `re.search(r'Qtr|DATA|ABIES|AIEEE', line)`. -/
def uiPatternC (l : List Char) : Bool :=
  containsL "Qtr".data l || containsL "DATA".data l ||
  containsL "ABIES".data l || containsL "AIEEE".data l

/-- `re.search(r'E\s*制$', line)`. -/
def uiPatternD (l : List Char) : Bool :=
  match l.reverse with
  | z :: rest =>
    z = '制' &&
      (match rest.dropWhile pySpaceB with
       | e :: _ => e = 'E'
       | [] => false)
  | [] => false

/-- A character outside `[a-zA-Z一-鿿0-9]`. -/
def oddChar (c : Char) : Bool := !(isAsciiAlpha c || isDigitB c || isCJK c)

/-- `HybridContentFilter._is_garbage_content`. -/
def is_garbage_content (l : List Char) : Bool :=
  (decide (10 * l.countP upperSymChar > 7 * l.length) && decide (l.length > 10)) ||
  dateSearch l ||
  uiPatternA l || uiPatternB l || uiPatternC l || uiPatternD l ||
  (decide (l.length < 5) && l.any oddChar)

/-- `HybridContentFilter._is_definite_garbage`. -/
def is_definite_garbage (l : List Char) : Bool := is_garbage_content l

def userCommentMarkers : List (List Char) :=
  ["我的留言".data, "用户留言".data, "最新留言".data, "最热留言".data,
   "只看作者".data, "好的人".data, "这是前提".data, "首次发布:".data,
   "发布时间:".data, "写留言".data]

/-- `HybridContentFilter._is_user_comment_start`. -/
def is_user_comment_start (l : List Char) : Bool :=
  userCommentMarkers.any (fun m => containsL m l)

def definiteCommentMarkers : List (List Char) :=
  ["我的留言".data, "用户留言".data, "最新留言".data, "最热留言".data,
   "只看作者".data, "评论区".data, "留言区".data]

/-- `HybridContentFilter._is_definite_user_comment_start`. -/
def is_definite_user_comment_start (l : List Char) : Bool :=
  definiteCommentMarkers.any (fun m => containsL m l)

/-- `HybridContentFilter._looks_like_main_content`. -/
def looks_like_main_content (l : List Char) : Bool :=
  if l.length < 5 then false
  else
    decide (10 * chineseCountL l > 5 * l.length) &&
    decide (l.length > 8) && decide (l.length < 300) &&
    !is_definite_garbage l

/-- `HybridContentFilter._looks_like_key_point_content`. -/
def looks_like_key_point_content (l : List Char) : Bool :=
  decide (10 * chineseCountL l > 4 * l.length) &&
  decide (l.length > 10) && decide (l.length < 200) &&
  !is_garbage_content l

/-- `re.match(r'^\d+[、．.]', line)`. -/
def numberedItem (l : List Char) : Bool :=
  let ds := l.takeWhile isDigitB
  !ds.isEmpty &&
    (match l.drop ds.length with
     | s :: _ => s = '、' || s = '．' || s = '.'
     | [] => false)

/-- `HybridContentFilter._is_continuation_of_key_point`. -/
def is_continuation_of_key_point (l : List Char) (prev : List (List Char)) : Bool :=
  match prev.getLast? with
  | none => false
  | some last =>
    numberedItem last ||
    (decide (10 * chineseCountL l > 3 * l.length) && decide (l.length > 5))

/-- The key-points marker phrase. -/
def hmk : List Char := "划重点".data

/-- Scan state of `_extract_with_key_points_boundary`:
`skip_mode`, `in_key_points`, `key_points_ended`, `filtered_lines`. -/
structure BState where
  skip : Bool
  inKey : Bool
  ended : Bool
  acc : List (List Char)
deriving DecidableEq, Repr

def initB : BState := ⟨false, false, false, []⟩

/-- The common tail of the boundary-aware loop body (from the
`_is_user_comment_start` check at line 69 of `content_filter_hybrid.py` on),
reached either directly or by falling through the key-points block. -/
def bTail (st : BState) (l : List Char) : BState :=
  if is_user_comment_start l then { st with skip := true }
  else if st.skip then st
  else if is_garbage_content l then st
  else if !st.inKey || st.ended then { st with acc := st.acc ++ [l] }
  else st

/-- One iteration of the `_extract_with_key_points_boundary` line loop. -/
def bStep (st : BState) (raw : List Char) : BState :=
  let l := stripL raw
  if l.isEmpty then st
  else if containsL hmk l then
    { st with inKey := true, ended := false, acc := st.acc ++ [l] }
  else if st.inKey && !st.ended then
    if numberedItem l then { st with acc := st.acc ++ [l] }
    else if is_continuation_of_key_point l st.acc then { st with acc := st.acc ++ [l] }
    else if is_garbage_content l then { st with ended := true }
    else if is_user_comment_start l then { st with ended := true, skip := true }
    else
      bTail (if looks_like_key_point_content l then st else { st with ended := true }) l
  else bTail st l

/-- `HybridContentFilter._extract_with_key_points_boundary`, kept lines. -/
def boundaryLines (lines : List (List Char)) : List (List Char) :=
  (lines.foldl bStep initB).acc

/-- Scan state of `_extract_without_key_points`: `skip_mode`, `filtered_lines`. -/
structure CState where
  skip : Bool
  acc : List (List Char)
deriving DecidableEq, Repr

def initC : CState := ⟨false, []⟩

/-- One iteration of the `_extract_without_key_points` line loop. -/
def cStep (st : CState) (raw : List Char) : CState :=
  let l := stripL raw
  if l.isEmpty then st
  else if is_definite_garbage l then st
  else if is_definite_user_comment_start l then { st with skip := true }
  else if st.skip then
    if looks_like_main_content l then
      if decide (l.length > 20) && decide (10 * chineseCountL l > 6 * l.length) then
        ⟨false, st.acc ++ [l]⟩
      else ⟨st.skip, st.acc ++ [l]⟩
    else st
  else ⟨st.skip, st.acc ++ [l]⟩

/-- `HybridContentFilter._extract_without_key_points`, kept lines. -/
def conservativeLines (lines : List (List Char)) : List (List Char) :=
  (lines.foldl cStep initC).acc

/-- The lines joined by `HybridContentFilter.extract_main_content`. -/
def extractLines (t : List Char) : List (List Char) :=
  if t.isEmpty || (stripL t).isEmpty then []
  else if containsL hmk t then boundaryLines (splitNlL t)
  else conservativeLines (splitNlL t)

/-- `HybridContentFilter.extract_main_content`. -/
def extract_main_content (t : List Char) : List Char :=
  joinNl (extractLines t)

/-- `len(text.replace(' ', '').replace('\n', ''))`, the character count used
by `EnhancedPDF2TXT.convert`. -/
def codeCharCount (l : List Char) : Nat :=
  (l.filter (fun c => c ≠ ' ' && c ≠ '\n')).length

/-- The capacity guard at the end of `EnhancedPDF2TXT.convert`: keep the
filtered text only if it retains at least 4096 characters. -/
def finalText (raw : List Char) : List Char :=
  let f := extract_main_content raw
  if codeCharCount f < 4096 then raw else f

/-- Count of non-whitespace characters.  Modelled from the spec's words
"count non-whitespace characters in the filtered result" (the code instead
removes only spaces and newlines); used to compare the spec's capacity-guard
reading with the code's. -/
def specNonWhitespaceCount (l : List Char) : Nat :=
  (l.filter (fun c => !pySpaceB c)).length

/-- The page-boundary marker piece `f"\n--- 第 {page_num} 页 ---\n"`. -/
def pageMarker (n : Nat) : List Char :=
  "\n--- 第 ".data ++ (Nat.repr n).data ++ " 页 ---\n".data

/-- The marker as one line of the assembled document text. -/
def pageMarkerLine (n : Nat) : List Char :=
  "--- 第 ".data ++ (Nat.repr n).data ++ " 页 ---".data

/-- The `all_text` list built by the page loop of `EnhancedPDF2TXT.convert`:
for each page (1-based) whose text is non-empty after stripping, a marker
piece, the page text, and a newline; empty pages append nothing. -/
def allTextPieces (pages : List (List Char)) : List (List Char) :=
  (List.enumFrom 1 pages).foldl
    (fun acc pt =>
      if (stripL pt.2).isEmpty then acc
      else acc ++ [pageMarker pt.1, pt.2, ['\n']])
    []

/-- `raw_text = ''.join(all_text)`. -/
def rawDocumentText (pages : List (List Char)) : List Char :=
  (allTextPieces pages).flatten

/-- `"exceeds limit" in str(e) or "decompression bomb" in str(e).lower()`. -/
def asciiLower (c : Char) : Char :=
  if isUpperAscii c then Char.ofNat (c.toNat + 32) else c

def tooLargeError (e : List Char) : Bool :=
  containsL "exceeds limit".data e ||
  containsL "decompression bomb".data (e.map asciiLower)

/-- `dpi_levels = [self.dpi, 250, 200, 150]`. -/
def dpiLevels (dpi : Nat) : List Nat := [dpi, 250, 200, 150]

def convFailMsg : List Char := "PDF转换失败：即使在最低DPI下图像仍然过大".data

/-- The retry loop of `EnhancedPDF2TXT._safe_convert_pdf` over a ladder of
DPI values, abstracting `convert_from_path` as `conv`. -/
def safeConvertGo {α : Type} (conv : Nat → Except (List Char) α) :
    List Nat → Except (List Char) α
  | [] => .error convFailMsg
  | d :: rest =>
    match conv d with
    | .ok imgs => .ok imgs
    | .error e => if tooLargeError e then safeConvertGo conv rest else .error e

/-- `EnhancedPDF2TXT._safe_convert_pdf`. -/
def safeConvertPdf {α : Type} (conv : Nat → Except (List Char) α) (dpi : Nat) :
    Except (List Char) α :=
  safeConvertGo conv (dpiLevels dpi)

/-- `height > self.max_chunk_height * 1.2` in `_process_page`
(`10000 * 1.2` is exactly `12000.0` as a double). -/
def usesChunkPath (height : Nat) : Bool := decide (height > 12000)

/-- `min(6, math.ceil(height / self.max_chunk_height))` in `_process_chunks`. -/
def numChunks (height : Nat) : Nat := min 6 ((height + 9999) / 10000)

/-- `chunk_height = height // num_chunks`. -/
def chunkHeight (height : Nat) : Nat := height / numChunks height

/-- The y-range `(start_y, end_y)` of chunk `i` in `_process_chunks`. -/
def chunkRange (height i : Nat) : Nat × Nat :=
  (i * chunkHeight height, min height ((i + 1) * chunkHeight height + 50))

/-- `DJGContentFilter`'s boundary keywords. -/
def djgBoundaryKeywords : List (List Char) :=
  ["用户留言".data, "用尸留言".data, "后一篇".data, "前一篇".data]

def djgHasBoundary (l : List Char) : Bool :=
  djgBoundaryKeywords.any (fun k => containsL k l)

/-- The line loop of `DJGContentFilter.extract_main_content`: keep each
non-blank stripped line, and stop right after the first kept line that
contains a boundary keyword. -/
def djgLoop : List (List Char) → List (List Char)
  | [] => []
  | raw :: rest =>
    let l := stripL raw
    if l.isEmpty then djgLoop rest
    else l :: (if djgHasBoundary l then [] else djgLoop rest)

/-- `DJGContentFilter.extract_main_content`. -/
def djg_extract_main_content (t : List Char) : List Char :=
  if t.isEmpty || (stripL t).isEmpty then []
  else joinNl (djgLoop (splitNlL t))

/-! ### General lemmas about the string primitives -/

theorem containsL_iff (n h : List Char) : containsL n h = true ↔ n <:+: h := by
  induction h with
  | nil =>
    simp [containsL, List.isEmpty_iff, List.infix_nil]
  | cons c t ih =>
    rw [containsL, Bool.or_eq_true, ih, List.infix_cons_iff,
      List.isPrefixOf_iff_prefix]

theorem stripL_infix_self (l : List Char) : stripL l <:+: l := by
  have h1 : l.dropWhile pySpaceB <:+ l := List.dropWhile_suffix _
  have h2 : (l.dropWhile pySpaceB).reverse.dropWhile pySpaceB <:+
      (l.dropWhile pySpaceB).reverse := List.dropWhile_suffix _
  have h3 : stripL l <+: l.dropWhile pySpaceB := by
    refine List.reverse_suffix.mp ?_
    simpa [stripL] using h2
  obtain ⟨t, ht⟩ := h3
  obtain ⟨s, hs⟩ := h1
  exact ⟨s, t, by rw [List.append_assoc, ht, hs]⟩

theorem stripL_subset (l : List Char) : stripL l ⊆ l :=
  (stripL_infix_self l).subset

theorem stripL_nil : stripL [] = [] := rfl

/-- A nonempty all-non-whitespace pattern survives `dropWhile pySpaceB`. -/
theorem infix_dropWhile_of_nonspace {m l : List Char} (hm : m ≠ [])
    (hns : ∀ c ∈ m, pySpaceB c = false) (h : m <:+: l) :
    m <:+: l.dropWhile pySpaceB := by
  obtain ⟨a, b, rfl⟩ := h
  induction a with
  | nil =>
    obtain ⟨c, m', rfl⟩ := List.exists_cons_of_ne_nil hm
    simp only [List.nil_append, List.cons_append, List.dropWhile_cons,
      hns c (by simp)]
    exact ⟨[], b, by simp⟩
  | cons x a' ih =>
    by_cases hx : pySpaceB x
    · simpa [List.dropWhile_cons, hx] using ih
    · refine ⟨x :: a', b, by simp [List.dropWhile_cons, hx]⟩

/-- A nonempty all-non-whitespace pattern survives stripping. -/
theorem infix_stripL_of_nonspace {m l : List Char} (hm : m ≠ [])
    (hns : ∀ c ∈ m, pySpaceB c = false) (h : m <:+: l) :
    m <:+: stripL l := by
  have h1 : m <:+: l.dropWhile pySpaceB := infix_dropWhile_of_nonspace hm hns h
  have h2 : m.reverse <:+: (l.dropWhile pySpaceB).reverse :=
    List.reverse_infix.mpr h1
  have h3 : m.reverse <:+: (l.dropWhile pySpaceB).reverse.dropWhile pySpaceB :=
    infix_dropWhile_of_nonspace (by simpa using hm)
      (fun c hc => hns c (by simpa using hc)) h2
  have h4 : m <:+: stripL l := by
    rw [stripL]
    simpa using List.reverse_infix.mpr h3
  exact h4

theorem containsL_stripL_of_nonspace {m l : List Char} (hm : m ≠ [])
    (hns : ∀ c ∈ m, pySpaceB c = false) (h : containsL m l = true) :
    containsL m (stripL l) = true :=
  (containsL_iff _ _).mpr
    (infix_stripL_of_nonspace hm hns ((containsL_iff _ _).mp h))

theorem containsL_of_stripL {m l : List Char} (h : containsL m (stripL l) = true) :
    containsL m l = true :=
  (containsL_iff _ _).mpr (((containsL_iff _ _).mp h).trans (stripL_infix_self l))

/-- Heads produced by `dropWhile` fail the predicate. -/
theorem dropWhile_head_false {p : Char → Bool} {l : List Char} {c : Char}
    {t : List Char} (h : l.dropWhile p = c :: t) : p c = false := by
  induction l with
  | nil => simp at h
  | cons x xs ih =>
    rw [List.dropWhile_cons] at h
    by_cases hx : p x
    · exact ih (by simpa [hx] using h)
    · simp only [hx, if_false] at h
      cases h
      simpa using hx

theorem dropWhile_of_head_false {p : Char → Bool} {c : Char} {t : List Char}
    (h : p c = false) : (c :: t).dropWhile p = c :: t := by
  simp [List.dropWhile_cons, h]

theorem stripL_ne_nil_of_mem {l : List Char} {c : Char} (hc : c ∈ l)
    (hns : pySpaceB c = false) : stripL l ≠ [] := by
  intro he
  have hA : ∀ a ∈ l.dropWhile pySpaceB, pySpaceB a = true := by
    intro a ha
    rcases hd : l.dropWhile pySpaceB with _ | ⟨x, xs⟩
    · simp [hd] at ha
    · have hrev : (l.dropWhile pySpaceB).reverse.dropWhile pySpaceB = [] := by
        have := congrArg List.reverse he
        simpa [stripL] using this
      have := List.dropWhile_eq_nil_iff.mp hrev a (by simp [hd] at ha ⊢; tauto)
      exact this
  have hcA : c ∈ l.dropWhile pySpaceB := by
    by_contra hno
    have : l.dropWhile pySpaceB = [] ∨ c ∉ l := by
      rcases hd : l.dropWhile pySpaceB with _ | ⟨x, xs⟩
      · exact Or.inl rfl
      · right
        intro hmem
        -- l = (takeWhile) ++ (dropWhile); c is in neither part
        have hsplit := List.takeWhile_append_dropWhile (p := pySpaceB) (l := l)
        rw [← hsplit] at hmem
        rcases List.mem_append.mp hmem with h1 | h1
        · have := List.mem_takeWhile_imp h1
          rw [hns] at this
          exact absurd this (by simp)
        · exact hno (hd ▸ h1)
    rcases this with h1 | h1
    · have := List.dropWhile_eq_nil_iff.mp h1 c hc
      rw [hns] at this
      exact absurd this (by simp)
    · exact h1 hc
  have := hA c hcA
  rw [hns] at this
  exact absurd this (by simp)

theorem stripL_idem (l : List Char) : stripL (stripL l) = stripL l := by
  rcases hB : (l.dropWhile pySpaceB).reverse.dropWhile pySpaceB with _ | ⟨c, tB⟩
  · have hs : stripL l = [] := by simp [stripL, hB]
    rw [hs, stripL_nil]
  · -- stripL l = (c :: tB).reverse; its last char is c, which is non-space,
    -- and its head is the head of dropWhile pySpaceB l, also non-space.
    have hcns : pySpaceB c = false := dropWhile_head_false hB
    have hsl : stripL l = (c :: tB).reverse := by simp [stripL, hB]
    -- head of stripL l fails pySpaceB
    have hsuf : (c :: tB) <:+ (l.dropWhile pySpaceB).reverse := by
      rw [← hB]; exact List.dropWhile_suffix _
    have hAne : l.dropWhile pySpaceB ≠ [] := by
      intro h0
      rw [h0] at hsuf
      simp at hsuf
    rcases hA : l.dropWhile pySpaceB with _ | ⟨a, tA⟩
    · exact absurd hA hAne
    · have hans : pySpaceB a = false := dropWhile_head_false hA
      -- (c :: tB).reverse is a prefix of a :: tA, hence starts with a
      have hpre : (c :: tB).reverse <+: a :: tA := by
        refine List.reverse_suffix.mp ?_
        rw [List.reverse_reverse, ← hA]
        exact hsuf
      rcases List.prefix_cons_iff.mp hpre with h0 | ⟨u, hu, _⟩
      · simp at h0
      · -- now compute stripL (stripL l)
        rw [hsl, stripL, hu, dropWhile_of_head_false hans, ← hu]
        simp only [List.reverse_reverse]
        rw [dropWhile_of_head_false hcns]

theorem splitNl_ne_nil (t : List Char) : splitNlL t ≠ [] := by
  cases t with
  | nil => simp [splitNlL]
  | cons c cs =>
    rw [splitNlL]
    by_cases h : c = '\n'
    · simp [h]
    · simp only [h, if_false]
      rcases splitNlL cs with _ | ⟨x, xs⟩ <;> simp

theorem splitNl_exists_cons (cs : List Char) :
    ∃ x xs, splitNlL cs = x :: xs := by
  rcases hq : splitNlL cs with _ | ⟨x, xs⟩
  · exact absurd hq (splitNl_ne_nil cs)
  · exact ⟨x, xs, rfl⟩

theorem mem_splitNl_no_nl (t : List Char) : ∀ l ∈ splitNlL t, '\n' ∉ l := by
  induction t with
  | nil => simp [splitNlL]
  | cons c cs ih =>
    obtain ⟨x, xs, hx⟩ := splitNl_exists_cons cs
    intro l hl
    rw [splitNlL] at hl
    by_cases h : c = '\n'
    · rw [if_pos h] at hl
      rcases List.mem_cons.mp hl with h1 | h1
      · subst h1; simp
      · exact ih l h1
    · rw [if_neg h, hx] at hl
      rcases List.mem_cons.mp hl with h1 | h1
      · subst h1
        intro hmem
        rcases List.mem_cons.mp hmem with h2 | h2
        · exact h h2.symm
        · exact ih x (by rw [hx]; simp) h2
      · exact ih l (by rw [hx]; simp [h1])

theorem joinNl_cons_ne (l : List Char) {ls : List (List Char)} (h : ls ≠ []) :
    joinNl (l :: ls) = l ++ '\n' :: joinNl ls := by
  rcases ls with _ | ⟨x, xs⟩
  · exact absurd rfl h
  · rfl

theorem joinNl_splitNl (t : List Char) : joinNl (splitNlL t) = t := by
  induction t with
  | nil => rfl
  | cons c cs ih =>
    rw [splitNlL]
    by_cases h : c = '\n'
    · rw [if_pos h, joinNl_cons_ne _ (splitNl_ne_nil cs), ih, h]
      rfl
    · rw [if_neg h]
      rcases hx : splitNlL cs with _ | ⟨x, xs⟩
      · exact absurd hx (splitNl_ne_nil cs)
      · rcases xs with _ | ⟨y, ys⟩
        · show joinNl [c :: x] = c :: cs
          rw [hx] at ih
          show c :: x = c :: cs
          rw [show x = joinNl [x] from rfl, ih]
        · rw [joinNl_cons_ne _ (by simp)]
          rw [hx, joinNl_cons_ne _ (by simp)] at ih
          show c :: (x ++ '\n' :: joinNl (y :: ys)) = c :: cs
          rw [← ih]

theorem splitNl_of_no_nl {l : List Char} (h : '\n' ∉ l) : splitNlL l = [l] := by
  induction l with
  | nil => rfl
  | cons c cs ih =>
    rw [splitNlL, if_neg (by intro hc; exact h (by simp [hc])),
      ih (fun hm => h (by simp [hm]))]

theorem splitNl_append_nl {l : List Char} (rest : List Char) (h : '\n' ∉ l) :
    splitNlL (l ++ '\n' :: rest) = l :: splitNlL rest := by
  induction l with
  | nil => simp [splitNlL]
  | cons c cs ih =>
    rw [List.cons_append, splitNlL,
      if_neg (by intro hc; exact h (by simp [hc])),
      ih (fun hm => h (by simp [hm]))]

theorem splitNl_joinNl {ls : List (List Char)} (hne : ls ≠ [])
    (h : ∀ l ∈ ls, '\n' ∉ l) : splitNlL (joinNl ls) = ls := by
  induction ls with
  | nil => exact absurd rfl hne
  | cons l rest ih =>
    rcases rest with _ | ⟨x, xs⟩
    · exact splitNl_of_no_nl (h l (by simp))
    · rw [joinNl_cons_ne _ (by simp),
        splitNl_append_nl _ (h l (by simp)),
        ih (by simp) (fun m hm => h m (by simp [hm]))]

theorem mem_joinNl_within {l : List Char} {ls : List (List Char)} (h : l ∈ ls) :
    l <:+: joinNl ls := by
  induction ls with
  | nil => simp at h
  | cons x xs ih =>
    rcases xs with _ | ⟨y, ys⟩
    · have h1 := List.mem_singleton.mp h
      subst h1
      exact List.infix_refl _
    · rw [joinNl_cons_ne _ (by simp)]
      rcases List.mem_cons.mp h with rfl | h
      · exact ⟨[], '\n' :: joinNl (y :: ys), by simp⟩
      · obtain ⟨s, t, hst⟩ := ih h
        exact ⟨x ++ '\n' :: s, t, by rw [← hst]; simp⟩

/-- A prefix of `a ++ c :: b` avoiding `c` is a prefix of `a`. -/
theorem prefix_append_cons_of_not_mem {a : List Char} {c : Char} {b : List Char} :
    ∀ {m : List Char}, m <+: a ++ c :: b → c ∉ m → m <+: a := by
  induction a with
  | nil =>
    intro m h hc
    rcases List.prefix_cons_iff.mp (show m <+: c :: b by simpa using h) with
      h1 | ⟨u, h1, _⟩
    · simp [h1]
    · exact absurd (by simp [h1]) hc
  | cons x a' ih =>
    intro m h hc
    rcases List.prefix_cons_iff.mp
        (show m <+: x :: (a' ++ c :: b) by simpa using h) with h1 | ⟨u, h1, hu⟩
    · simp [h1]
    · subst h1
      have h2 := ih hu (fun hm => hc (by simp [hm]))
      exact List.prefix_cons_iff.mpr (Or.inr ⟨u, rfl, h2⟩)

/-- An infix of `a ++ c :: b` avoiding `c` lies in `a` or in `b`. -/
theorem infix_append_cons_of_not_mem {a : List Char} {c : Char} {b : List Char} :
    ∀ {m : List Char}, m <:+: a ++ c :: b → c ∉ m → m <:+: a ∨ m <:+: b := by
  induction a with
  | nil =>
    intro m h hc
    rcases List.infix_cons_iff.mp (show m <:+: c :: b by simpa using h) with
      h1 | h1
    · rcases List.prefix_cons_iff.mp h1 with h2 | ⟨u, h2, _⟩
      · subst h2
        exact Or.inl List.nil_infix
      · exact absurd (by simp [h2]) hc
    · exact Or.inr h1
  | cons x a' ih =>
    intro m h hc
    rcases List.infix_cons_iff.mp
        (show m <:+: x :: (a' ++ c :: b) by simpa using h) with h1 | h1
    · rcases List.prefix_cons_iff.mp h1 with h2 | ⟨u, h2, hu⟩
      · subst h2
        exact Or.inl List.nil_infix
      · subst h2
        have h3 := prefix_append_cons_of_not_mem hu (fun hm => hc (by simp [hm]))
        obtain ⟨t, ht⟩ := h3
        exact Or.inl ⟨[], t, by simp [ht]⟩
    · rcases ih h1 hc with h2 | h2
      · exact Or.inl (h2.trans ⟨[x], [], by simp⟩)
      · exact Or.inr h2

/-- A newline-free nonempty infix of a join lies inside one of the lines. -/
theorem infix_joinNl_mem {m : List Char} {ls : List (List Char)}
    (hm : m ≠ []) (hnl : '\n' ∉ m) (h : m <:+: joinNl ls) :
    ∃ l ∈ ls, m <:+: l := by
  induction ls with
  | nil =>
    rw [show joinNl [] = [] from rfl] at h
    exact absurd (List.infix_nil.mp h) hm
  | cons x xs ih =>
    rcases xs with _ | ⟨y, ys⟩
    · exact ⟨x, by simp, h⟩
    · rw [joinNl_cons_ne _ (by simp)] at h
      rcases infix_append_cons_of_not_mem h hnl with h1 | h1
      · exact ⟨x, by simp, h1⟩
      · obtain ⟨l, hl, h2⟩ := ih h1
        exact ⟨l, by simp [hl], h2⟩

/-! ### Step analysis of the two line-classification loops -/

theorem cStep_acc_cases (st : CState) (raw : List Char) :
    (cStep st raw).acc = st.acc ∨
    ((cStep st raw).acc = st.acc ++ [stripL raw] ∧ stripL raw ≠ [] ∧
      is_definite_garbage (stripL raw) = false ∧
      is_definite_user_comment_start (stripL raw) = false) := by
  by_cases h0 : (stripL raw).isEmpty
  · left; simp [cStep, h0]
  have hne : stripL raw ≠ [] := by simpa using h0
  by_cases h1 : is_definite_garbage (stripL raw)
  · left; simp [cStep, h0, h1]
  by_cases h2 : is_definite_user_comment_start (stripL raw)
  · left; simp [cStep, h0, h1, h2]
  by_cases h3 : st.skip
  · by_cases h4 : looks_like_main_content (stripL raw)
    · right
      refine ⟨?_, hne, by simpa using h1, by simpa using h2⟩
      by_cases h5 : (decide ((stripL raw).length > 20) &&
          decide (10 * chineseCountL (stripL raw) > 6 * (stripL raw).length)) = true
      · simp [cStep, h0, h1, h2, h3, h4, h5]
      · simp [cStep, h0, h1, h2, h3, h4, h5]
    · left; simp [cStep, h0, h1, h2, h3, h4]
  · right
    refine ⟨?_, hne, by simpa using h1, by simpa using h2⟩
    simp [cStep, h0, h1, h2, h3]

theorem bTail_acc_cases (st : BState) (l : List Char) :
    (bTail st l).acc = st.acc ∨ (bTail st l).acc = st.acc ++ [l] := by
  unfold bTail
  by_cases h1 : is_user_comment_start l
  · left; simp [h1]
  by_cases h2 : st.skip
  · left; simp [h1, h2]
  by_cases h3 : is_garbage_content l
  · left; simp [h1, h2, h3]
  by_cases h4 : (!st.inKey || st.ended) = true
  · right; simp [h1, h2, h3, h4]
  · left; simp [h1, h2, h3, h4]

theorem bStep_acc_cases (st : BState) (raw : List Char) :
    (bStep st raw).acc = st.acc ∨
    ((bStep st raw).acc = st.acc ++ [stripL raw] ∧ stripL raw ≠ []) := by
  by_cases h0 : (stripL raw).isEmpty
  · left; simp [bStep, h0]
  have hne : stripL raw ≠ [] := by simpa using h0
  by_cases h1 : containsL hmk (stripL raw)
  · right; exact ⟨by simp [bStep, h0, h1], hne⟩
  by_cases h2 : (st.inKey && !st.ended) = true
  · by_cases h3 : numberedItem (stripL raw)
    · right; exact ⟨by simp [bStep, h0, h1, h2, h3], hne⟩
    by_cases h4 : is_continuation_of_key_point (stripL raw) st.acc
    · right; exact ⟨by simp [bStep, h0, h1, h2, h3, h4], hne⟩
    by_cases h5 : is_garbage_content (stripL raw)
    · left; simp [bStep, h0, h1, h2, h3, h4, h5]
    by_cases h6 : is_user_comment_start (stripL raw)
    · left; simp [bStep, h0, h1, h2, h3, h4, h5, h6]
    have hb : bStep st raw =
        bTail (if looks_like_key_point_content (stripL raw) then st
               else { st with ended := true }) (stripL raw) := by
      simp [bStep, h0, h1, h2, h3, h4, h5, h6]
    rw [hb]
    by_cases h7 : looks_like_key_point_content (stripL raw)
    · rcases bTail_acc_cases st (stripL raw) with h | h
      · left; simpa [h7] using h
      · right; exact ⟨by simpa [h7] using h, hne⟩
    · rcases bTail_acc_cases { st with ended := true } (stripL raw) with h | h
      · left; simpa [h7] using h
      · right; exact ⟨by simpa [h7] using h, hne⟩
  · have hb : bStep st raw = bTail st (stripL raw) := by
      simp [bStep, h0, h1, h2]
    rw [hb]
    rcases bTail_acc_cases st (stripL raw) with h | h
    · left; exact h
    · right; exact ⟨h, hne⟩

/-- Both loops only ever append the stripped current line, if anything. -/
theorem foldl_acc_extends {σ : Type} (step : σ → List Char → σ)
    (accOf : σ → List (List Char))
    (hstep : ∀ st raw, accOf (step st raw) = accOf st ∨
      (accOf (step st raw) = accOf st ++ [stripL raw] ∧ stripL raw ≠ [])) :
    ∀ (lines : List (List Char)) (st : σ),
      ∃ new, accOf (List.foldl step st lines) = accOf st ++ new ∧
        List.Sublist new (lines.map stripL) ∧ [] ∉ new := by
  intro lines
  induction lines with
  | nil => exact fun st => ⟨[], by simp, by simp, by simp⟩
  | cons raw rest ih =>
    intro st
    obtain ⟨new, hacc, hsub, hnil⟩ := ih (step st raw)
    rcases hstep st raw with h | ⟨h, hne⟩
    · refine ⟨new, ?_, ?_, hnil⟩
      · rw [List.foldl_cons, hacc, h]
      · simpa using List.Sublist.cons (stripL raw) hsub
    · refine ⟨stripL raw :: new, ?_, ?_, ?_⟩
      · rw [List.foldl_cons, hacc, h]
        simp
      · simpa using List.Sublist.cons₂ (stripL raw) hsub
      · intro hmem
        rcases List.mem_cons.mp hmem with h2 | h2
        · exact hne h2.symm
        · exact hnil h2

/-- C10: every line the hybrid filter outputs, under either strategy, is a
whitespace-trimmed non-empty input line, output lines keep the input's
relative order with no invention, merging or duplication, and the output
has no blank lines. -/
theorem C10_output_lines_are_trimmed_input_lines (t : List Char) :
    List.Sublist (extractLines t) ((splitNlL t).map stripL) ∧ [] ∉ extractLines t := by
  unfold extractLines
  by_cases hg : (t.isEmpty || (stripL t).isEmpty) = true
  · simp [hg]
  · rw [if_neg (by simpa using hg)]
    by_cases hmark : containsL hmk t = true
    · rw [if_pos hmark]
      obtain ⟨new, h1, h2, h3⟩ :=
        foldl_acc_extends bStep BState.acc bStep_acc_cases (splitNlL t) initB
      unfold boundaryLines
      rw [h1]
      exact ⟨by simpa [initB] using h2, by simpa [initB] using h3⟩
    · rw [if_neg hmark]
      obtain ⟨new, h1, h2, h3⟩ :=
        foldl_acc_extends cStep CState.acc
          (fun st raw => (cStep_acc_cases st raw).imp id (fun h => ⟨h.1, h.2.1⟩))
          (splitNlL t) initC
      unfold conservativeLines
      rw [h1]
      exact ⟨by simpa [initC] using h2, by simpa [initC] using h3⟩

/-! ### C2: the conservative strategy's SKIPPING behaviour -/

/-- C2 (amended): for a document without the key-points marker, while the
conservative strategy is in SKIPPING mode a (non-blank, non-garbage,
non-comment-marker) line is emitted if and only if it looks like main
content (CJK ratio above 0.5, length strictly between 8 and 300, not
garbage); SKIPPING is cleared if and only if the line additionally has
length above 20 and CJK ratio above 0.6.  In particular a line can be
emitted while SKIPPING stays set, and a line with length above 20 and CJK
ratio above 0.6 but length at least 300 stays dropped. -/
theorem C2_conservative_skip_step (st : CState) (l : List Char)
    (hskip : st.skip = true) (hfix : stripL l = l) (hne : l ≠ [])
    (hg : is_definite_garbage l = false)
    (hc : is_definite_user_comment_start l = false) :
    (cStep st l).acc =
      (if looks_like_main_content l then st.acc ++ [l] else st.acc) ∧
    ((cStep st l).skip = false ↔
      (looks_like_main_content l = true ∧ 20 < l.length ∧
        6 * l.length < 10 * chineseCountL l)) := by
  have hie : l.isEmpty = false := by simpa using hne
  by_cases h4 : looks_like_main_content l
  · by_cases h5 : (decide (l.length > 20) &&
        decide (10 * chineseCountL l > 6 * l.length)) = true
    · constructor
      · simp [cStep, hfix, hie, hg, hc, hskip, h4, h5]
      · simp only [cStep, hfix, hie, hg, hc, hskip, h4, h5]
        simp only [Bool.and_eq_true, decide_eq_true_eq] at h5
        simp [h4, h5.1, h5.2]
    · constructor
      · simp [cStep, hfix, hie, hg, hc, hskip, h4, h5]
      · simp only [cStep, hfix, hie, hg, hc, hskip, h4, h5]
        simp only [Bool.and_eq_true, decide_eq_true_eq, not_and] at h5
        constructor
        · intro hcontra
          simp [hskip] at hcontra
        · rintro ⟨_, h20, hr⟩
          exact (h5 h20 hr).elim
  · constructor
    · simp [cStep, hfix, hie, hg, hc, hskip, h4]
    · constructor
      · intro hcontra
        simp [cStep, hfix, hie, hg, hc, hskip, h4] at hcontra
      · rintro ⟨hl, _, _⟩
        exact absurd hl (by simpa using h4)

def wline : List Char := "这是一段中文内容啊".data

/-- Witness for C2: a 9-character all-CJK line in SKIPPING mode. -/
theorem C2_conservative_skip_step_witness :
    (cStep ⟨true, []⟩ wline).acc =
      (if looks_like_main_content wline then [] ++ [wline] else []) ∧
    ((cStep ⟨true, []⟩ wline).skip = false ↔
      (looks_like_main_content wline = true ∧ 20 < wline.length ∧
        6 * wline.length < 10 * chineseCountL wline)) :=
  C2_conservative_skip_step ⟨true, []⟩ wline rfl (by decide) (by decide)
    (by decide) (by decide)

/-- C2 counterexample: after `评论区` puts the conservative strategy into
SKIPPING mode, the 9-character line `这是一段中文内容啊` (length at most 20,
so not meeting the claimed exact trigger) is nevertheless emitted. -/
theorem C2_counterexample :
    (cStep initC "评论区".data).skip = true ∧
    ("这是一段中文内容啊".data).length ≤ 20 ∧
    extract_main_content "评论区\n这是一段中文内容啊".data =
      "这是一段中文内容啊".data := by decide

/-! ### C3: stickiness of SKIPPING in the boundary-aware strategy -/

theorem bTail_skip_eq (st : BState) (l : List Char) (h : st.skip = true) :
    bTail st l = st := by
  unfold bTail
  by_cases h1 : is_user_comment_start l
  · rw [if_pos h1]
    cases st
    simp_all
  · simp [h1, h]

theorem bStep_skip_mono (st : BState) (raw : List Char) (h : st.skip = true) :
    (bStep st raw).skip = true := by
  by_cases h0 : (stripL raw).isEmpty
  · simpa [bStep, h0] using h
  by_cases h1 : containsL hmk (stripL raw)
  · simpa [bStep, h0, h1] using h
  by_cases h2 : (st.inKey && !st.ended) = true
  · by_cases h3 : numberedItem (stripL raw)
    · simpa [bStep, h0, h1, h2, h3] using h
    by_cases h4 : is_continuation_of_key_point (stripL raw) st.acc
    · simpa [bStep, h0, h1, h2, h3, h4] using h
    by_cases h5 : is_garbage_content (stripL raw)
    · simpa [bStep, h0, h1, h2, h3, h4, h5] using h
    by_cases h6 : is_user_comment_start (stripL raw)
    · simp [bStep, h0, h1, h2, h3, h4, h5, h6]
    have hb : bStep st raw =
        bTail (if looks_like_key_point_content (stripL raw) then st
               else { st with ended := true }) (stripL raw) := by
      simp [bStep, h0, h1, h2, h3, h4, h5, h6]
    rw [hb]
    by_cases h7 : looks_like_key_point_content (stripL raw)
    · rw [if_pos h7, bTail_skip_eq st _ h]
      exact h
    · rw [if_neg h7, bTail_skip_eq _ _ (by simpa using h)]
      simpa using h
  · have hb : bStep st raw = bTail st (stripL raw) := by
      simp [bStep, h0, h1, h2]
    rw [hb, bTail_skip_eq st _ h]
    exact h

theorem bStep_inactive_drop (st : BState) (raw : List Char)
    (hskip : st.skip = true) (hkey : st.inKey = false ∨ st.ended = true)
    (hm : containsL hmk raw = false) :
    bStep st raw = st := by
  by_cases h0 : (stripL raw).isEmpty
  · simp [bStep, h0]
  have h1 : containsL hmk (stripL raw) = false := by
    by_contra hx
    have := containsL_of_stripL (m := hmk) (l := raw)
      (by simpa using Bool.not_eq_false _ |>.mp hx)
    rw [hm] at this
    exact absurd this (by simp)
  have h2 : (st.inKey && !st.ended) = false := by
    rcases hkey with h | h <;> simp [h]
  have hb : bStep st raw = bTail st (stripL raw) := by
    simp [bStep, h0, h1, h2]
  rw [hb, bTail_skip_eq st _ hskip]

/-- C3 (amended): in the boundary-aware strategy the SKIPPING flag is
sticky — once set it is never cleared for the rest of the document — and
while SKIPPING with the key section inactive every line not containing the
key-points marker `划重点` is dropped and leaves the state unchanged.  A
later line containing the marker, however, is still emitted and re-opens
the key section, so emission is not over for the rest of the document. -/
theorem C3_skip_sticky_without_marker :
    (∀ (lines : List (List Char)) (st : BState), st.skip = true →
      (List.foldl bStep st lines).skip = true) ∧
    (∀ (lines : List (List Char)) (st : BState), st.skip = true →
      (st.inKey = false ∨ st.ended = true) →
      (∀ l ∈ lines, containsL hmk l = false) →
      List.foldl bStep st lines = st) := by
  constructor
  · intro lines
    induction lines with
    | nil => intro st h; simpa using h
    | cons raw rest ih =>
      intro st h
      exact ih _ (bStep_skip_mono st raw h)
  · intro lines
    induction lines with
    | nil => intro st h _ _; rfl
    | cons raw rest ih =>
      intro st h hkey hm
      rw [List.foldl_cons, bStep_inactive_drop st raw h hkey (hm raw (by simp))]
      exact ih st h hkey (fun l hl => hm l (by simp [hl]))

/-- Witness for C3: a skipping state drops marker-free lines unchanged. -/
theorem C3_skip_sticky_without_marker_witness :
    (List.foldl bStep ⟨true, false, false, []⟩
      ["评论继续".data, "继续跳过的内容".data]).skip = true ∧
    List.foldl bStep ⟨true, false, false, []⟩
      ["评论继续".data, "继续跳过的内容".data] = ⟨true, false, false, []⟩ :=
  ⟨C3_skip_sticky_without_marker.1 _ _ rfl,
   C3_skip_sticky_without_marker.2 _ _ rfl (Or.inl rfl) (by decide)⟩

/-- C3 counterexample: in the document
`划重点摘要\n用户留言\n划重点回来` the second line switches the scan into
SKIPPING mode, yet the third line is still emitted afterwards — so it is
not true that nothing further is ever emitted once SKIPPING is entered. -/
theorem C3_counterexample :
    (List.foldl bStep initB
      (List.take 2 (splitNlL "划重点摘要\n用户留言\n划重点回来".data))).skip
        = true ∧
    extract_main_content "划重点摘要\n用户留言\n划重点回来".data =
      "划重点摘要\n划重点回来".data := by decide

/-! ### C4: page-boundary marker lines and the classifier -/

theorem cLines_no_garbage : ∀ (lines : List (List Char)) (st : CState),
    (∀ l ∈ st.acc, is_definite_garbage l = false) →
    ∀ l ∈ (List.foldl cStep st lines).acc, is_definite_garbage l = false := by
  intro lines
  induction lines with
  | nil => intro st h; simpa using h
  | cons raw rest ih =>
    intro st h
    refine ih (cStep st raw) ?_
    intro l hl
    rcases cStep_acc_cases st raw with hc | ⟨hc, _, hg, _⟩
    · exact h l (hc ▸ hl)
    · rw [hc] at hl
      rcases List.mem_append.mp hl with h1 | h1
      · exact h l h1
      · rw [List.mem_singleton.mp h1]
        exact hg

/-- C4 (amended): page-boundary marker lines `--- 第 N 页 ---` are classified
as garbage only for page numbers of at most two digits; for `1 ≤ N ≤ 99` the
marker is garbage and, under the conservative strategy (text without the
key-points marker), never appears in the classifier's output.  (For
`N ≥ 100`, and in the boundary-aware strategy even for small `N`, marker
lines can be retained — see the counterexample.) -/
theorem C4_small_markers_dropped_conservative (t : List Char) (n : Nat)
    (h1 : 1 ≤ n) (h2 : n ≤ 99) (hm : containsL hmk t = false) :
    is_garbage_content (pageMarkerLine n) = true ∧
    pageMarkerLine n ∉ extractLines t := by
  have hgarb : ∀ m : Nat, m < 100 → 1 ≤ m →
      is_garbage_content (pageMarkerLine m) = true := by decide
  have hg := hgarb n (by omega) h1
  refine ⟨hg, ?_⟩
  unfold extractLines
  by_cases hge : (t.isEmpty || (stripL t).isEmpty) = true
  · simp [hge]
  · rw [if_neg (by simpa using hge), if_neg (by simp [hm])]
    intro hmem
    have hng := cLines_no_garbage (splitNlL t) initC (by simp [initC]) _ hmem
    rw [is_definite_garbage] at hng
    rw [hng] at hg
    exact absurd hg (by simp)

/-- Witness for C4: page marker 7 in a plain document. -/
theorem C4_small_markers_dropped_conservative_witness :
    is_garbage_content (pageMarkerLine 7) = true ∧
    pageMarkerLine 7 ∉ extractLines "正文在此".data :=
  C4_small_markers_dropped_conservative "正文在此".data 7 (by decide)
    (by decide) (by decide)

/-- C4 counterexample: the marker for page 100 is not classified as garbage
and survives the conservative strategy verbatim; and under the
boundary-aware strategy even the (garbage-classified) page-1 marker is
emitted as a key-point continuation right after a numbered item. -/
theorem C4_counterexample :
    is_garbage_content (pageMarkerLine 100) = false ∧
    extractLines "--- 第 100 页 ---".data = ["--- 第 100 页 ---".data] ∧
    is_garbage_content (pageMarkerLine 1) = true ∧
    extract_main_content "划重点\n1、要点\n--- 第 1 页 ---".data =
      "划重点\n1、要点\n--- 第 1 页 ---".data := by decide

/-! ### C1: marker sections of the assembled document text -/

theorem allTextPieces_foldl (ps : List (Nat × List Char))
    (acc : List (List Char)) :
    ps.foldl (fun acc pt => if (stripL pt.2).isEmpty then acc
      else acc ++ [pageMarker pt.1, pt.2, ['\n']]) acc =
    acc ++ ((ps.filter (fun p => !(stripL p.2).isEmpty)).map
      (fun p => [pageMarker p.1, p.2, ['\n']])).flatten := by
  induction ps generalizing acc with
  | nil => simp
  | cons p ps ih =>
    rw [List.foldl_cons]
    by_cases h : (stripL p.2).isEmpty
    · rw [if_pos h, ih]
      have hf : List.filter (fun q => !(stripL q.2).isEmpty) (p :: ps) =
          List.filter (fun q => !(stripL q.2).isEmpty) ps := by
        simp [List.filter_cons, h]
      rw [hf]
    · rw [if_neg h, ih]
      have hf : List.filter (fun q => !(stripL q.2).isEmpty) (p :: ps) =
          p :: List.filter (fun q => !(stripL q.2).isEmpty) ps := by
        simp [List.filter_cons, h]
      rw [hf]
      simp

theorem enumFrom_fst_lt (ps : List (List Char)) :
    ∀ n : Nat, (List.enumFrom n ps).Pairwise (fun a b => a.1 < b.1) := by
  induction ps with
  | nil => intro n; simp
  | cons x xs ih =>
    intro n
    rw [List.enumFrom]
    refine List.Pairwise.cons ?_ (ih (n + 1))
    rintro ⟨i, y⟩ hmem
    have := (List.mem_enumFrom hmem).1
    simpa using by omega

/-- C1 (amended): the assembled document text contains, in strictly
increasing page-number order, one marker section for every page whose
recognized text is non-empty after stripping; a page whose text is empty
contributes nothing — no marker and no section — so a document of `N` pages
yields as many marker sections as pages with non-empty text, not `N`. -/
theorem C1_marker_sections (pages : List (List Char)) :
    allTextPieces pages =
      (((List.enumFrom 1 pages).filter
        (fun p => !(stripL p.2).isEmpty)).map
        (fun p => [pageMarker p.1, p.2, ['\n']])).flatten ∧
    ((((List.enumFrom 1 pages).filter
      (fun p => !(stripL p.2).isEmpty)).map Prod.fst).Pairwise (· < ·)) := by
  constructor
  · unfold allTextPieces
    simpa using allTextPieces_foldl (List.enumFrom 1 pages) []
  · rw [List.pairwise_map]
    exact List.Pairwise.sublist (List.filter_sublist _) (enumFrom_fst_lt pages 1)

/-- C1 counterexample: a three-page document whose second page text is empty
produces only two marker sections — the page-2 marker is absent — refuting
the claim that `N` pages always yield `N` marker sections. -/
theorem C1_counterexample :
    allTextPieces ["第一页的内容".data, [], "第三页的内容".data] =
      [pageMarker 1, "第一页的内容".data, ['\n'],
       pageMarker 3, "第三页的内容".data, ['\n']] ∧
    pageMarker 2 ∉ allTextPieces ["第一页的内容".data, [], "第三页的内容".data] ∧
    (allTextPieces ["第一页的内容".data, [], "第三页的内容".data]).countP
      (fun s => containsL "--- 第 ".data s) ≠ 3 := by decide

/-! ### C5: the 4096-character capacity guard -/

/-- C5 (amended): the capacity guard compares the count of characters other
than the ASCII space and the newline (not the count of non-whitespace
characters): if that count of the filtered result is below 4096 the final
output is the unfiltered raw text, and otherwise it is the filtered result,
regardless of which strategy produced it. -/
theorem C5_capacity_guard (raw : List Char) :
    (codeCharCount (extract_main_content raw) < 4096 → finalText raw = raw) ∧
    (4096 ≤ codeCharCount (extract_main_content raw) →
      finalText raw = extract_main_content raw) := by
  unfold finalText
  constructor
  · intro h
    simp [h]
  · intro h
    simp [Nat.not_lt.mpr h]

/-- Witness for C5: a short document keeps its raw text. -/
theorem C5_capacity_guard_witness :
    finalText "你好世界".data = "你好世界".data :=
  (C5_capacity_guard "你好世界".data).1 (by decide)

/-! ### C6: the DPI fallback ladder -/

theorem safeConvertGo_ok {α : Type} (conv : Nat → Except (List Char) α) :
    ∀ (pre : List Nat) (d : Nat) (post : List Nat) (imgs : α),
      (∀ x ∈ pre, ∃ e, conv x = .error e ∧ tooLargeError e = true) →
      conv d = .ok imgs →
      safeConvertGo conv (pre ++ d :: post) = .ok imgs := by
  intro pre
  induction pre with
  | nil =>
    intro d post imgs _ hd
    simp [safeConvertGo, hd]
  | cons x pre ih =>
    intro d post imgs hpre hd
    obtain ⟨e, he, hte⟩ := hpre x (by simp)
    simp only [List.cons_append, safeConvertGo, he, hte, if_true]
    exact ih d post imgs (fun y hy => hpre y (by simp [hy])) hd

theorem safeConvertGo_err {α : Type} (conv : Nat → Except (List Char) α) :
    ∀ (pre : List Nat) (d : Nat) (post : List Nat) (e : List Char),
      (∀ x ∈ pre, ∃ e2, conv x = .error e2 ∧ tooLargeError e2 = true) →
      conv d = .error e → tooLargeError e = false →
      safeConvertGo conv (pre ++ d :: post) = .error e := by
  intro pre
  induction pre with
  | nil =>
    intro d post e _ hd hte
    simp [safeConvertGo, hd, hte]
  | cons x pre ih =>
    intro d post e hpre hd hte
    obtain ⟨e2, he2, hte2⟩ := hpre x (by simp)
    simp only [List.cons_append, safeConvertGo, he2, hte2, if_true]
    exact ih d post e (fun y hy => hpre y (by simp [hy])) hd hte

theorem safeConvertGo_exhaust {α : Type} (conv : Nat → Except (List Char) α) :
    ∀ ds : List Nat,
      (∀ x ∈ ds, ∃ e, conv x = .error e ∧ tooLargeError e = true) →
      safeConvertGo conv ds = .error convFailMsg := by
  intro ds
  induction ds with
  | nil => intro _; rfl
  | cons x ds ih =>
    intro h
    obtain ⟨e, he, hte⟩ := h x (by simp)
    simp only [safeConvertGo, he, hte, if_true]
    exact ih (fun y hy => h y (by simp [hy]))

/-- C6: a too-large rasterization failure at one DPI causes a retry at the
next lower DPI of the fixed ladder `[requested, 250, 200, 150]`; the first
DPI that succeeds has its images returned with no further DPI attempted; a
failure of any other class is propagated immediately without retry; and if
every ladder level fails with the too-large class, a fatal conversion
failure is raised for the whole document. -/
theorem C6_dpi_fallback {α : Type} (conv : Nat → Except (List Char) α)
    (req : Nat) :
    (∀ pre d post imgs, dpiLevels req = pre ++ d :: post →
      (∀ x ∈ pre, ∃ e, conv x = .error e ∧ tooLargeError e = true) →
      conv d = .ok imgs → safeConvertPdf conv req = .ok imgs) ∧
    (∀ pre d post e, dpiLevels req = pre ++ d :: post →
      (∀ x ∈ pre, ∃ e2, conv x = .error e2 ∧ tooLargeError e2 = true) →
      conv d = .error e → tooLargeError e = false →
      safeConvertPdf conv req = .error e) ∧
    ((∀ x ∈ dpiLevels req, ∃ e, conv x = .error e ∧ tooLargeError e = true) →
      safeConvertPdf conv req = .error convFailMsg) := by
  refine ⟨?_, ?_, ?_⟩
  · intro pre d post imgs hlad hpre hd
    unfold safeConvertPdf
    rw [hlad]
    exact safeConvertGo_ok conv pre d post imgs hpre hd
  · intro pre d post e hlad hpre hd hte
    unfold safeConvertPdf
    rw [hlad]
    exact safeConvertGo_err conv pre d post e hpre hd hte
  · intro h
    unfold safeConvertPdf
    exact safeConvertGo_exhaust conv (dpiLevels req) h

def convStub : Nat → Except (List Char) Nat := fun d =>
  if d = 150 then .ok 42
  else .error
    "Image size (400000000 pixels) exceeds limit of 178956970 pixels".data

/-- Witness for C6: a rasterizer failing too-large at 400, 250 and 200 DPI
and succeeding at 150 returns exactly the 150-DPI result. -/
theorem C6_dpi_fallback_witness : safeConvertPdf convStub 400 = .ok 42 :=
  (C6_dpi_fallback convStub 400).1 [400, 250, 200] 150 [] 42 rfl
    (by
      intro x hx
      refine ⟨"Image size (400000000 pixels) exceeds limit of 178956970 pixels".data,
        ?_, by decide⟩
      fin_cases hx <;> rfl)
    rfl

/-! ### C7: chunk geometry of oversized pages -/

/-- C7: chunked processing is taken exactly when the page height exceeds the
10,000 px threshold by more than 20 percent (height above 12,000 px); the
page is then split into `min 6 (ceil (height / 10000))` chunks, each
adjacent pair of chunk y-ranges overlaps by exactly the 50 px margin, and
the final chunk ends at the image height. -/
theorem C7_chunk_geometry (height : Nat) :
    (usesChunkPath height = true ↔ 12000 < height) ∧
    (12000 < height →
      numChunks height = min 6 ((height + 9999) / 10000) ∧
      (∀ i, i + 1 < numChunks height →
        (chunkRange height i).2 = (chunkRange height (i + 1)).1 + 50) ∧
      (chunkRange height (numChunks height - 1)).2 = height) := by
  constructor
  · simp [usesChunkPath]
  · intro hh
    have hn6 : numChunks height ≤ 6 := Nat.min_le_left _ _
    have hn2 : 2 ≤ numChunks height := by
      have h1 : 2 ≤ (height + 9999) / 10000 := by
        rw [Nat.le_div_iff_mul_le (by norm_num)]
        omega
      exact le_min (by norm_num) h1
    have hch : 2000 ≤ chunkHeight height := by
      have h1 : height / 6 ≤ height / numChunks height :=
        Nat.div_le_div_left hn6 (by omega)
      have h2 : 2000 ≤ height / 6 := by
        rw [Nat.le_div_iff_mul_le (by norm_num)]
        omega
      exact le_trans h2 h1
    have hmul : numChunks height * chunkHeight height ≤ height := by
      have h1 := Nat.div_mul_le_self height (numChunks height)
      unfold chunkHeight
      rw [Nat.mul_comm]
      exact h1
    have hmod : height < numChunks height * chunkHeight height +
        numChunks height := by
      have h1 := Nat.div_add_mod height (numChunks height)
      have h2 := Nat.mod_lt height (show 0 < numChunks height by omega)
      unfold chunkHeight
      omega
    have hsub : (numChunks height - 1) * chunkHeight height +
        chunkHeight height = numChunks height * chunkHeight height := by
      rw [← Nat.succ_mul]
      congr 1
      omega
    refine ⟨rfl, ?_, ?_⟩
    · intro i hi
      have hle : (i + 1) * chunkHeight height ≤
          (numChunks height - 1) * chunkHeight height :=
        Nat.mul_le_mul_right _ (by omega)
      simp only [chunkRange]
      rw [Nat.min_eq_right (by omega)]
    · simp only [chunkRange]
      rw [Nat.sub_add_cancel (by omega : 1 ≤ numChunks height)]
      rw [Nat.min_eq_left (by omega)]

/-- Witness for C7: a 25,000 px page splits into 3 chunks with 50 px
overlaps, the last ending at 25,000. -/
theorem C7_chunk_geometry_witness :
    usesChunkPath 25000 = true ∧
    numChunks 25000 = 3 ∧
    (chunkRange 25000 0).2 = (chunkRange 25000 1).1 + 50 ∧
    (chunkRange 25000 (numChunks 25000 - 1)).2 = 25000 :=
  ⟨(C7_chunk_geometry 25000).1.mpr (by norm_num), by decide,
   ((C7_chunk_geometry 25000).2 (by norm_num)).2.1 0 (by decide),
   ((C7_chunk_geometry 25000).2 (by norm_num)).2.2⟩

/-! ### C9: the DJG filter's truncation -/

theorem djgLoop_eq (lines : List (List Char)) :
    djgLoop lines =
      (((lines.map stripL).filter (fun l => !l.isEmpty)).takeWhile
        (fun l => !djgHasBoundary l)) ++
      ((((lines.map stripL).filter (fun l => !l.isEmpty)).dropWhile
        (fun l => !djgHasBoundary l)).take 1) := by
  induction lines with
  | nil => rfl
  | cons raw rest ih =>
    rw [djgLoop]
    by_cases h0 : (stripL raw).isEmpty
    · rw [if_pos h0, ih]
      have hf : (List.map stripL (raw :: rest)).filter (fun l => !l.isEmpty) =
          (rest.map stripL).filter (fun l => !l.isEmpty) := by
        simp [List.filter_cons, h0]
      rw [hf]
    · rw [if_neg h0]
      have hf : (List.map stripL (raw :: rest)).filter (fun l => !l.isEmpty) =
          stripL raw :: (rest.map stripL).filter (fun l => !l.isEmpty) := by
        simp [List.filter_cons, h0]
      rw [hf]
      by_cases h1 : djgHasBoundary (stripL raw)
      · rw [if_pos h1]
        rw [List.takeWhile_cons, List.dropWhile_cons]
        simp [h1]
      · rw [if_neg h1, ih]
        rw [List.takeWhile_cons, List.dropWhile_cons]
        simp [h1]

/-- C9 (amended): the DJG filter keeps every non-blank line (stripped,
verbatim, no further filtering) up to and including the first line that
contains one of the end-of-article markers `用户留言`, `用尸留言`, `后一篇`,
`前一篇`, and truncates everything after that line.  The marker-bearing line
itself is kept, not removed. -/
theorem C9_djg_truncation (t : List Char)
    (h : (t.isEmpty || (stripL t).isEmpty) = false) :
    djg_extract_main_content t =
      joinNl ((((splitNlL t).map stripL).filter (fun l => !l.isEmpty)).takeWhile
          (fun l => !djgHasBoundary l) ++
        ((((splitNlL t).map stripL).filter (fun l => !l.isEmpty)).dropWhile
          (fun l => !djgHasBoundary l)).take 1) := by
  unfold djg_extract_main_content
  rw [if_neg (by simp [h]), djgLoop_eq]

/-- Witness for C9 on a three-line document with a marker in line two. -/
theorem C9_djg_truncation_witness :
    djg_extract_main_content "正文内容\n用户留言: 很赞\n后续内容".data =
      joinNl ((((splitNlL "正文内容\n用户留言: 很赞\n后续内容".data).map
          stripL).filter (fun l => !l.isEmpty)).takeWhile
          (fun l => !djgHasBoundary l) ++
        ((((splitNlL "正文内容\n用户留言: 很赞\n后续内容".data).map
          stripL).filter (fun l => !l.isEmpty)).dropWhile
          (fun l => !djgHasBoundary l)).take 1) :=
  C9_djg_truncation "正文内容\n用户留言: 很赞\n后续内容".data (by decide)

/-- C9 counterexample: the DJG filter does not truncate from the first
occurrence of the marker onward — the line containing `用户留言` is itself
kept in the output. -/
theorem C9_counterexample :
    djg_extract_main_content "正文内容\n用户留言: 很赞\n后续内容".data =
      "正文内容\n用户留言: 很赞".data ∧
    containsL "用户留言".data
      (djg_extract_main_content "正文内容\n用户留言: 很赞\n后续内容".data) =
        true := by decide

/-! ### C8: idempotence of the hybrid filter -/

theorem cLines_mem_spec : ∀ (lines : List (List Char)) (st : CState)
    (l : List Char), l ∈ (List.foldl cStep st lines).acc →
    l ∈ st.acc ∨ ∃ raw ∈ lines, l = stripL raw ∧ stripL raw ≠ [] ∧
      is_definite_garbage (stripL raw) = false ∧
      is_definite_user_comment_start (stripL raw) = false := by
  intro lines
  induction lines with
  | nil => intro st l h; exact Or.inl (by simpa using h)
  | cons raw rest ih =>
    intro st l h
    rcases ih (cStep st raw) l h with h1 | ⟨r, hr, h2⟩
    · rcases cStep_acc_cases st raw with hc | ⟨hc, hne, hg, hcm⟩
      · exact Or.inl (hc ▸ h1)
      · rw [hc] at h1
        rcases List.mem_append.mp h1 with h3 | h3
        · exact Or.inl h3
        · exact Or.inr ⟨raw, by simp, List.mem_singleton.mp h3, hne, hg, hcm⟩
    · exact Or.inr ⟨r, by simp [hr], h2⟩

theorem cFold_all_kept : ∀ (lines : List (List Char)) (st : CState),
    st.skip = false →
    (∀ raw ∈ lines, is_definite_garbage (stripL raw) = false ∧
      is_definite_user_comment_start (stripL raw) = false) →
    List.foldl cStep st lines =
      ⟨false, st.acc ++ (lines.map stripL).filter (fun l => !l.isEmpty)⟩ := by
  intro lines
  induction lines with
  | nil =>
    intro st hs _
    cases st
    simp_all
  | cons raw rest ih =>
    intro st hs h
    obtain ⟨hg, hc⟩ := h raw (by simp)
    rw [List.foldl_cons]
    by_cases h0 : (stripL raw).isEmpty
    · have hstep : cStep st raw = st := by
        simp [cStep, h0]
      rw [hstep, ih st hs (fun r hr => h r (by simp [hr]))]
      have hf : ((raw :: rest).map stripL).filter (fun l => !l.isEmpty) =
          (rest.map stripL).filter (fun l => !l.isEmpty) := by
        simp [List.filter_cons, h0]
      rw [hf]
    · have hstep : cStep st raw = ⟨false, st.acc ++ [stripL raw]⟩ := by
        cases st
        simp_all [cStep, h0]
      rw [hstep, ih _ rfl (fun r hr => h r (by simp [hr]))]
      have hf : ((raw :: rest).map stripL).filter (fun l => !l.isEmpty) =
          stripL raw :: (rest.map stripL).filter (fun l => !l.isEmpty) := by
        simp [List.filter_cons, h0]
      rw [hf]
      simp

theorem bLines_contains_marker : ∀ (lines : List (List Char)) (st : BState),
    (∃ raw ∈ lines, containsL hmk (stripL raw) = true) →
    ∃ l ∈ (List.foldl bStep st lines).acc, containsL hmk l = true := by
  intro lines
  induction lines with
  | nil => intro st h; simp at h
  | cons raw rest ih =>
    intro st h
    rcases h with ⟨r, hr, hcont⟩
    rcases List.mem_cons.mp hr with rfl | hmem
    · have hne : stripL r ≠ [] := by
        intro h0
        rw [h0] at hcont
        exact absurd hcont (by decide)
      have hstep : (bStep st r).acc = st.acc ++ [stripL r] := by
        simp [bStep, (by simpa using hne : (stripL r).isEmpty = false), hcont]
      obtain ⟨new, hacc, _, _⟩ :=
        foldl_acc_extends bStep BState.acc bStep_acc_cases rest (bStep st r)
      refine ⟨stripL r, ?_, hcont⟩
      rw [List.foldl_cons, hacc, hstep]
      simp
    · obtain ⟨l, hl, hc⟩ := ih (bStep st raw) ⟨r, hmem, hcont⟩
      exact ⟨l, by rw [List.foldl_cons]; exact hl, hc⟩

theorem head_not_space_of_stripped {c : Char} {t : List Char}
    (h : stripL (c :: t) = c :: t) : pySpaceB c = false := by
  by_contra hx
  have hc : pySpaceB c = true := by simpa using hx
  have h1 : (c :: t).dropWhile pySpaceB = t.dropWhile pySpaceB := by
    simp [List.dropWhile_cons, hc]
  have hlen1 : (stripL (c :: t)).length ≤
      ((c :: t).dropWhile pySpaceB).length := by
    have ha := (List.dropWhile_suffix
      (l := ((c :: t).dropWhile pySpaceB).reverse) pySpaceB).sublist.length_le
    simp only [stripL, List.length_reverse]
    simpa using ha
  rw [h, h1] at hlen1
  have hlen2 : (t.dropWhile pySpaceB).length ≤ t.length :=
    (List.dropWhile_suffix pySpaceB).sublist.length_le
  simp only [List.length_cons] at hlen1
  omega

/-- An output of the conservative strategy made of stripped, non-blank,
newline-free, non-garbage, non-comment-marker lines is a fixed point of
the hybrid filter when it lacks the key-points marker. -/
theorem conservative_output_fixed {L : List (List Char)} (hLnil : L ≠ [])
    (hfix : ∀ l ∈ L, stripL l = l) (hlne : ∀ l ∈ L, l ≠ [])
    (hnl : ∀ l ∈ L, '\n' ∉ l)
    (hg : ∀ l ∈ L, is_definite_garbage l = false)
    (hcm : ∀ l ∈ L, is_definite_user_comment_start l = false)
    (hmk2 : containsL hmk (joinNl L) = false) :
    extract_main_content (joinNl L) = joinNl L := by
  obtain ⟨l0, L', rfl⟩ := List.exists_cons_of_ne_nil hLnil
  obtain ⟨c0, t0, hl0⟩ := List.exists_cons_of_ne_nil (hlne l0 (by simp))
  have hc0 : pySpaceB c0 = false := by
    refine head_not_space_of_stripped (t := t0) ?_
    rw [← hl0]
    exact hfix l0 (by simp)
  have hc0mem : c0 ∈ joinNl (l0 :: L') := by
    refine (mem_joinNl_within (show l0 ∈ l0 :: L' by simp)).subset ?_
    rw [hl0]
    simp
  have hjne : joinNl (l0 :: L') ≠ [] := by
    intro h0
    rw [h0] at hc0mem
    simp at hc0mem
  have hsne : stripL (joinNl (l0 :: L')) ≠ [] :=
    stripL_ne_nil_of_mem hc0mem hc0
  have hguard : ((joinNl (l0 :: L')).isEmpty ||
      (stripL (joinNl (l0 :: L'))).isEmpty) = false := by
    simp [hjne, hsne]
  have hsplit : splitNlL (joinNl (l0 :: L')) = l0 :: L' :=
    splitNl_joinNl (by simp) hnl
  show joinNl (extractLines (joinNl (l0 :: L'))) = joinNl (l0 :: L')
  unfold extractLines
  rw [if_neg (by simp [hguard]), if_neg (by simp [hmk2]), hsplit]
  unfold conservativeLines
  rw [cFold_all_kept (l0 :: L') initC rfl
    (fun raw hraw => by
      rw [hfix raw hraw]
      exact ⟨hg raw hraw, hcm raw hraw⟩)]
  have hmap : (l0 :: L').map stripL = l0 :: L' := by
    rw [List.map_congr_left hfix]
    simp
  have hfilter : ((l0 :: L').map stripL).filter (fun l => !l.isEmpty) =
      l0 :: L' := by
    rw [hmap]
    refine List.filter_eq_self.mpr ?_
    intro a ha
    simpa using hlne a ha
  rw [hfilter]
  simp [initC]

/-- C8: if the hybrid filter's output contains neither the key-points marker
phrase nor any noise-signature (garbage) line, then running the filter on
that output returns it unchanged — the output is a fixed point. -/
theorem C8_idempotent (t : List Char)
    (h1 : containsL hmk (extract_main_content t) = false)
    (h2 : ∀ l ∈ splitNlL (extract_main_content t),
      is_garbage_content l = false) :
    extract_main_content (extract_main_content t) = extract_main_content t := by
  by_cases hga : (t.isEmpty || (stripL t).isEmpty) = true
  · have ho : extract_main_content t = [] := by
      show joinNl (extractLines t) = []
      unfold extractLines
      rw [if_pos hga]
      rfl
    rw [ho]
    decide
  · by_cases hmark : containsL hmk t = true
    · exfalso
      have hmne : hmk ≠ [] := by decide
      obtain ⟨raw, hraw, hrc⟩ : ∃ raw ∈ splitNlL t, containsL hmk raw = true := by
        have hinf : hmk <:+: joinNl (splitNlL t) := by
          rw [joinNl_splitNl]
          exact (containsL_iff _ _).mp hmark
        obtain ⟨l, hl, h3⟩ := infix_joinNl_mem hmne (by decide) hinf
        exact ⟨l, hl, (containsL_iff _ _).mpr h3⟩
      have hrcs : containsL hmk (stripL raw) = true :=
        containsL_stripL_of_nonspace hmne (by decide) hrc
      obtain ⟨l, hl, hlc⟩ :=
        bLines_contains_marker (splitNlL t) initB ⟨raw, hraw, hrcs⟩
      have hml : l ∈ extractLines t := by
        unfold extractLines
        rw [if_neg (by simpa using hga), if_pos hmark]
        exact hl
      have hinf2 : hmk <:+: extract_main_content t :=
        ((containsL_iff _ _).mp hlc).trans (mem_joinNl_within hml)
      exact absurd ((containsL_iff _ _).mpr hinf2) (by simp [h1])
    · have hLconf : extractLines t =
          (List.foldl cStep initC (splitNlL t)).acc := by
        unfold extractLines
        rw [if_neg (by simpa using hga), if_neg hmark]
        rfl
      have hprops : ∀ l ∈ extractLines t, stripL l = l ∧ l ≠ [] ∧
          is_definite_garbage l = false ∧
          is_definite_user_comment_start l = false ∧ '\n' ∉ l := by
        intro l hl
        rw [hLconf] at hl
        rcases cLines_mem_spec (splitNlL t) initC l hl with
          h3 | ⟨raw, hraw, rfl, hne, hgr, hcmr⟩
        · simp [initC] at h3
        · refine ⟨stripL_idem raw, hne, hgr, hcmr, ?_⟩
          intro hnl
          exact mem_splitNl_no_nl t raw hraw (stripL_subset raw hnl)
      by_cases hLnil : extractLines t = []
      · have ho : extract_main_content t = [] := by
          show joinNl (extractLines t) = []
          rw [hLnil]
          rfl
        rw [ho]
        decide
      · have hnl : ∀ l ∈ extractLines t, '\n' ∉ l :=
          fun l hl => (hprops l hl).2.2.2.2
        have hsplit : splitNlL (joinNl (extractLines t)) = extractLines t :=
          splitNl_joinNl hLnil hnl
        have hgarb : ∀ l ∈ extractLines t, is_definite_garbage l = false := by
          intro l hl
          have := h2 l (by
            rw [show extract_main_content t = joinNl (extractLines t) from rfl,
              hsplit]
            exact hl)
          exact this
        exact conservative_output_fixed hLnil
          (fun l hl => (hprops l hl).1)
          (fun l hl => (hprops l hl).2.1)
          hnl hgarb
          (fun l hl => (hprops l hl).2.2.2.1)
          h1

/-- Witness for C8: a plain one-line document is a fixed point. -/
theorem C8_idempotent_witness :
    extract_main_content (extract_main_content "你好世界这是正文".data) =
      extract_main_content "你好世界这是正文".data :=
  C8_idempotent "你好世界这是正文".data (by decide) (by decide)

/-! ### C5 counterexample: tabs count for the code but not as content -/

theorem mem_joinNl_cases {c : Char} : ∀ {ls : List (List Char)},
    c ∈ joinNl ls → c = '\n' ∨ ∃ l ∈ ls, c ∈ l := by
  intro ls
  induction ls with
  | nil => intro h; simp [joinNl] at h
  | cons x xs ih =>
    rcases xs with _ | ⟨y, ys⟩
    · intro h
      exact Or.inr ⟨x, by simp, h⟩
    · intro h
      rw [joinNl_cons_ne _ (by simp)] at h
      rcases List.mem_append.mp h with h1 | h1
      · exact Or.inr ⟨x, by simp, h1⟩
      · rcases List.mem_cons.mp h1 with rfl | h1
        · exact Or.inl rfl
        · rcases ih h1 with h2 | ⟨l, hl, h3⟩
          · exact Or.inl h2
          · exact Or.inr ⟨l, by simp [hl], h3⟩

theorem joinNl_append_nil (A : List (List Char)) (hA : A ≠ []) :
    joinNl (A ++ [[]]) = joinNl A ++ ['\n'] := by
  induction A with
  | nil => exact absurd rfl hA
  | cons a A' ih =>
    rcases A' with _ | ⟨b, B⟩
    · simp [joinNl]
    · rw [show (a :: b :: B) ++ [[]] = a :: ((b :: B) ++ [[]]) from rfl]
      rw [joinNl_cons_ne _ (by simp), ih (by simp)]
      rw [show joinNl (a :: b :: B) = a ++ '\n' :: joinNl (b :: B) from
        joinNl_cons_ne _ (by simp)]
      simp

theorem count_filter_joinNl_replicate (p : Char → Bool) (hp : p '\n' = false) :
    ∀ (n : Nat) (a : List Char),
      ((joinNl (List.replicate n a)).filter p).length =
        n * (a.filter p).length := by
  intro n
  induction n with
  | zero => intro a; simp [joinNl]
  | succ m ih =>
    intro a
    rcases m with _ | m2
    · simp [joinNl]
    · rw [List.replicate_succ, joinNl_cons_ne _ (by simp)]
      rw [List.filter_append, List.length_append, List.filter_cons]
      rw [hp]
      simp only [Bool.false_eq_true, if_false]
      rw [ih]
      ring

theorem ccc_joinNl_replicate (n : Nat) (a : List Char) :
    codeCharCount (joinNl (List.replicate n a)) = n * codeCharCount a :=
  count_filter_joinNl_replicate _ (by decide) n a

theorem snc_joinNl_replicate (n : Nat) (a : List Char) :
    specNonWhitespaceCount (joinNl (List.replicate n a)) =
      n * specNonWhitespaceCount a :=
  count_filter_joinNl_replicate _ (by decide) n a

def lineC5 : List Char := "中文字\t中文字".data

def rawC5 : List Char := joinNl (List.replicate 586 lineC5 ++ [[]])

theorem replicate_lineC5_ne_nil : List.replicate 586 lineC5 ≠ [] := by
  intro h
  have h2 := congrArg List.length h
  rw [List.length_replicate] at h2
  simp at h2

theorem rawC5_split : splitNlL rawC5 = List.replicate 586 lineC5 ++ [[]] := by
  refine splitNl_joinNl ?_ ?_
  · intro h
    exact List.cons_ne_nil _ _ (List.append_eq_nil.mp h).2
  · intro l hl
    rcases List.mem_append.mp hl with h | h
    · rw [List.eq_of_mem_replicate h]; decide
    · rw [List.mem_singleton.mp h]; simp

theorem rawC5_extract :
    extract_main_content rawC5 = joinNl (List.replicate 586 lineC5) := by
  have hmem : '中' ∈ rawC5 := by
    refine (mem_joinNl_within (l := lineC5) ?_).subset (by decide)
    exact List.mem_append_left _ (List.mem_replicate.mpr ⟨by norm_num, rfl⟩)
  have hguard : (rawC5.isEmpty || (stripL rawC5).isEmpty) = false := by
    have h1 : stripL rawC5 ≠ [] := stripL_ne_nil_of_mem hmem (by decide)
    have h2 : rawC5 ≠ [] := by
      intro h0
      rw [h0] at hmem
      simp at hmem
    have e1 : rawC5.isEmpty = false := by
      rcases hr : rawC5 with _ | ⟨x, xs⟩
      · exact absurd hr h2
      · rfl
    have e2 : (stripL rawC5).isEmpty = false := by
      rcases hr : stripL rawC5 with _ | ⟨x, xs⟩
      · exact absurd hr h1
      · rfl
    rw [e1, e2]
    rfl
  have hmark : containsL hmk rawC5 = false := by
    by_contra hx
    have hinf : hmk <:+: rawC5 :=
      (containsL_iff _ _).mp (by simpa using Bool.not_eq_false _ |>.mp hx)
    have hhua : '划' ∈ rawC5 := hinf.subset (by decide)
    rcases mem_joinNl_cases hhua with h | ⟨l, hl, hc⟩
    · exact absurd h (by decide)
    · rcases List.mem_append.mp hl with h2 | h2
      · rw [List.eq_of_mem_replicate h2] at hc
        exact absurd hc (by decide)
      · rw [List.mem_singleton.mp h2] at hc
        simp at hc
  show joinNl (extractLines rawC5) = _
  unfold extractLines
  rw [if_neg (by rw [hguard]; simp), if_neg (by rw [hmark]; simp), rawC5_split]
  unfold conservativeLines
  rw [cFold_all_kept _ initC rfl (fun raw hraw => by
    rcases List.mem_append.mp hraw with h | h
    · rw [List.eq_of_mem_replicate h]
      exact ⟨by decide, by decide⟩
    · rw [List.mem_singleton.mp h]
      exact ⟨by decide, by decide⟩)]
  show joinNl ([] ++ ((List.replicate 586 lineC5 ++ [[]]).map stripL).filter
      (fun l => !l.isEmpty)) = joinNl (List.replicate 586 lineC5)
  refine congrArg joinNl ?_
  rw [List.nil_append, List.map_append, List.map_replicate,
    show stripL lineC5 = lineC5 from by decide, List.filter_append]
  rw [List.filter_eq_self.mpr
    (fun a ha => by rw [List.eq_of_mem_replicate ha]; decide)]
  rw [show ((List.map stripL [[]]).filter (fun l => !l.isEmpty)) = [] from
    by decide]
  rw [List.append_nil]

/-- C5 counterexample: for this 586-line tab-bearing document the filtered
result has 3516 non-whitespace characters (below 4096) yet the final output
is the filtered result rather than the unfiltered raw text, because the
code counts only spaces and newlines as removable and so sees 4102
characters.  This refutes the claim under the standard meaning of
"non-whitespace". -/
theorem C5_counterexample :
    specNonWhitespaceCount (extract_main_content rawC5) < 4096 ∧
    finalText rawC5 ≠ rawC5 := by
  have hsnc : specNonWhitespaceCount (extract_main_content rawC5) = 3516 := by
    rw [rawC5_extract, snc_joinNl_replicate,
      show specNonWhitespaceCount lineC5 = 6 from by decide]
  have hccc : codeCharCount (extract_main_content rawC5) = 4102 := by
    rw [rawC5_extract, ccc_joinNl_replicate,
      show codeCharCount lineC5 = 7 from by decide]
  constructor
  · rw [hsnc]
    norm_num
  · have hfin : finalText rawC5 = extract_main_content rawC5 := by
      show (if codeCharCount (extract_main_content rawC5) < 4096 then rawC5
        else extract_main_content rawC5) = extract_main_content rawC5
      rw [if_neg (by rw [hccc]; norm_num)]
    rw [hfin, rawC5_extract]
    rw [show rawC5 = joinNl (List.replicate 586 lineC5) ++ ['\n'] from
      joinNl_append_nil _ replicate_lineC5_ne_nil]
    intro h
    have hlen := congrArg List.length h
    rw [List.length_append] at hlen
    simp only [List.length_cons, List.length_nil] at hlen
    omega

end Pdf2Txt
